import Mathlib

/-! Verification of the asm-to-PIL naming and return-instruction synthesis
layer (`asm_to_pil/src/common.rs`): deterministic name generation for
instruction flags and input/output assignment registers, and the synthesis
of the canonical return instruction. -/

namespace AsmToPil

/-- Constant for the return keyword in the PIL constraints. -/
def RETURN_NAME : String := "return"

/-- Constant for the reset instruction in the PIL constraints. -/
def RESET_NAME : String := "_reset"

/-- Generates the instruction flag name for a given instruction:
`format!("instr_\x7bname\x7d")`. -/
def instruction_flag (name : String) : String :=
  "instr_" ++ name

/-- Generates the name of the read-only register at a given index:
`format!("_input_\x7b\x7d", i)`. -/
def input_at (i : Nat) : String :=
  "_input_" ++ Nat.repr i

/-- Generates the name of the output assignment register at a given index:
`format!("_output_\x7b\x7d", i)`. -/
def output_at (i : Nat) : String :=
  "_output_" ++ Nat.repr i

/-- Generates the names of the output assignment registers for a given count:
`(0..count).map(output_at).collect()`. -/
def output_registers (count : Nat) : List String :=
  (List.range count).map output_at

/-- The instruction text assembled by `return_instruction`: the format string
`"\x7b\x7d \x7b\x7b \x7bpc_name\x7d' = 0 \x7d\x7d"` applied to the
comma-joined output register names. -/
def return_instruction_text (output_count : Nat) (pc_name : String) : String :=
  String.intercalate ", " (output_registers output_count) ++ " \x7b " ++ pc_name ++ "' = 0 \x7d"

/-- Structured instruction node: the register parameter list together with the
next-cycle assignment body, whose target register is assigned a constant. -/
structure Instruction where
  params : List String
  assignTarget : String
  assignValue : Nat
deriving DecidableEq

/-- Splits a character list at the first occurrence of the separator,
returning the part before and the part after, or none when absent. -/
def splitAtChar (sep : Char) : List Char → Option (List Char × List Char)
  | [] => none
  | c :: cs =>
    if c = sep then some ([], cs)
    else
      match splitAtChar sep cs with
      | some (pre, post) => some (c :: pre, post)
      | none => none

/-- Splits a character list on every occurrence of the separator. -/
def splitOnChar (sep : Char) : List Char → List (List Char)
  | [] => [[]]
  | c :: cs =>
    match splitOnChar sep cs with
    | [] => if c = sep then [[], []] else [[c]]
    | h :: t => if c = sep then [] :: h :: t else (c :: h) :: t

/-- Drops leading and trailing spaces from a character list. -/
def trimSpaces (l : List Char) : List Char :=
  ((l.dropWhile (fun c => c = ' ')).reverse.dropWhile (fun c => c = ' ')).reverse

/-- Accumulator loop reading decimal digits left to right. -/
def decimalDigitsAux : List Char → Nat → Option Nat
  | [], acc => some acc
  | c :: cs, acc =>
    if c.isDigit then decimalDigitsAux cs (acc * 10 + (c.toNat - 48)) else none

/-- Reads a nonempty all-digit character list as a decimal number. -/
def decimalDigits : List Char → Option Nat
  | [] => none
  | c :: cs => decimalDigitsAux (c :: cs) 0

/-- The prime character used by the next-cycle assignment notation. -/
def tickChar : Char := Char.ofNat 39

/-- Modelled from the spec: the external instruction-text parser
`parseInstruction(text)` (the collaborator `crate::utils::parse_instruction`
is not among the sources), assumed total over the grammar this component
generates: an optional comma-separated register list followed by a braced
body assigning a decimal constant to the next-cycle value of a register,
written with the prime notation. A text outside that grammar yields none. -/
def parse_instruction (text : String) : Option Instruction :=
  match splitAtChar (Char.ofNat 123) text.data with
  | none => none
  | some (pre, rest) =>
    match splitAtChar (Char.ofNat 125) rest with
    | none => none
    | some (inner, tail) =>
      if tail ≠ [] then none
      else
        let params :=
          (((splitOnChar ',' pre).map trimSpaces).filter (fun l => l ≠ [])).map
            (fun l => String.mk l)
        match splitAtChar tickChar (trimSpaces inner) with
        | none => none
        | some (target, rest2) =>
          match trimSpaces rest2 with
          | [] => none
          | e :: valuePart =>
            if e = '=' then
              match decimalDigits (trimSpaces valuePart) with
              | none => none
              | some v =>
                some { params := params, assignTarget := String.mk target, assignValue := v }
            else none

/-- Generates the return instruction for a given number of outputs and program
counter name: the formatted instruction text handed to the parser. -/
def return_instruction (output_count : Nat) (pc_name : String) : Option Instruction :=
  parse_instruction (return_instruction_text output_count pc_name)

/-- Fuel-indexed correctness of the core decimal printer with respect to the
mathematical digit expansion, for positive numbers and sufficient fuel. -/
lemma toDigitsCore_eq_digits :
    ∀ (f n : Nat) (acc : List Char), 0 < n → n < f →
      Nat.toDigitsCore 10 f n acc = ((Nat.digits 10 n).map Nat.digitChar).reverse ++ acc := by
  intro f
  induction f with
  | zero => intro n acc hn hf; omega
  | succ f ih =>
    intro n acc hn hf
    by_cases h10 : n / 10 = 0
    · have hlt : n < 10 := by omega
      have hdig : Nat.digits 10 n = [n] := Nat.digits_of_lt 10 n (by omega) hlt
      simp [Nat.toDigitsCore, h10, hdig, Nat.mod_eq_of_lt hlt]
    · have h1 : 0 < n / 10 := Nat.pos_of_ne_zero h10
      have h2 : n / 10 < f :=
        lt_of_lt_of_le (Nat.div_lt_self hn (by norm_num)) (Nat.lt_succ_iff.mp hf)
      have hstep :
          Nat.toDigitsCore 10 (f + 1) n acc =
            Nat.toDigitsCore 10 f (n / 10) (Nat.digitChar (n % 10) :: acc) := by
        simp [Nat.toDigitsCore, h10]
      rw [hstep, ih (n / 10) (Nat.digitChar (n % 10) :: acc) h1 h2,
        Nat.digits_def' (by norm_num : (1 : Nat) < 10) hn]
      simp

/-- The printed decimal digits of a positive number are its digit expansion,
most significant first. -/
lemma toDigits_eq_digits (n : Nat) (hn : 0 < n) :
    Nat.toDigits 10 n = ((Nat.digits 10 n).map Nat.digitChar).reverse := by
  have h := toDigitsCore_eq_digits (n + 1) n [] hn (Nat.lt_succ_self n)
  simpa [Nat.toDigits] using h

/-- The digit-to-character table is injective below the base ten. -/
lemma digitChar_inj_lt :
    ∀ a, a < 10 → ∀ b, b < 10 → Nat.digitChar a = Nat.digitChar b → a = b := by decide

/-- Mapping the digit-to-character table over digit lists is injective. -/
lemma map_digitChar_inj :
    ∀ l1 l2 : List Nat, (∀ x ∈ l1, x < 10) → (∀ x ∈ l2, x < 10) →
      l1.map Nat.digitChar = l2.map Nat.digitChar → l1 = l2 := by
  intro l1
  induction l1 with
  | nil =>
    intro l2 _ _ h
    cases l2 with
    | nil => rfl
    | cons b t => simp at h
  | cons a t ih =>
    intro l2 h1 h2 h
    cases l2 with
    | nil => simp at h
    | cons b t2 =>
      simp only [List.map_cons, List.cons.injEq] at h
      have ha : a < 10 := h1 a (by simp)
      have hb : b < 10 := h2 b (by simp)
      have hab := digitChar_inj_lt a ha b hb h.1
      subst hab
      have ht := ih t2 (fun x hx => h1 x (by simp [hx])) (fun x hx => h2 x (by simp [hx])) h.2
      rw [ht]

/-- A positive number never prints to the same digits as zero. -/
lemma toDigits_pos_ne_zero (n : Nat) (hn : 0 < n) :
    Nat.toDigits 10 n ≠ Nat.toDigits 10 0 := by
  intro h
  rw [toDigits_eq_digits n hn] at h
  have h0 : Nat.toDigits 10 0 = [Char.ofNat 48] := rfl
  rw [h0] at h
  have h2 : (Nat.digits 10 n).map Nat.digitChar = [Char.ofNat 48] := by
    have := congrArg List.reverse h
    simpa using this
  cases hl : Nat.digits 10 n with
  | nil => rw [hl] at h2; simp at h2
  | cons d t =>
    rw [hl] at h2
    simp only [List.map_cons, List.cons.injEq] at h2
    have ht : t = [] := List.map_eq_nil_iff.mp h2.2
    have hd10 : d < 10 :=
      Nat.digits_lt_base (by norm_num) (hl ▸ List.mem_cons_self d t)
    have hd0 : d = 0 := by
      refine digitChar_inj_lt d hd10 0 (by norm_num) ?_
      rw [h2.1]
      rfl
    have hofd := Nat.ofDigits_digits 10 n
    rw [hl, ht, hd0] at hofd
    simp [Nat.ofDigits] at hofd
    omega

/-- Decimal printing of natural numbers is injective. -/
lemma nat_repr_injective : Function.Injective Nat.repr := by
  intro m n h
  have hd : Nat.toDigits 10 m = Nat.toDigits 10 n := congrArg String.data h
  cases m with
  | zero =>
    cases n with
    | zero => rfl
    | succ n => exact absurd hd.symm (toDigits_pos_ne_zero (n + 1) (Nat.succ_pos n))
  | succ m =>
    cases n with
    | zero => exact absurd hd (toDigits_pos_ne_zero (m + 1) (Nat.succ_pos m))
    | succ n =>
      rw [toDigits_eq_digits _ (Nat.succ_pos m), toDigits_eq_digits _ (Nat.succ_pos n)] at hd
      have h2 :
          (Nat.digits 10 (m + 1)).map Nat.digitChar =
            (Nat.digits 10 (n + 1)).map Nat.digitChar := by
        have := congrArg List.reverse hd
        simpa using this
      have h3 : Nat.digits 10 (m + 1) = Nat.digits 10 (n + 1) :=
        map_digitChar_inj _ _ (fun x hx => Nat.digits_lt_base (by norm_num) hx)
          (fun x hx => Nat.digits_lt_base (by norm_num) hx) h2
      have h4 := congrArg (Nat.ofDigits 10) h3
      rwa [Nat.ofDigits_digits, Nat.ofDigits_digits] at h4

/-- The character data of an input register name, spelled out. -/
lemma input_at_data (i : Nat) :
    (input_at i).data =
      '_' :: 'i' :: 'n' :: 'p' :: 'u' :: 't' :: '_' :: (Nat.repr i).data := rfl

/-- The character data of an output register name, spelled out. -/
lemma output_at_data (i : Nat) :
    (output_at i).data =
      '_' :: 'o' :: 'u' :: 't' :: 'p' :: 'u' :: 't' :: '_' :: (Nat.repr i).data := rfl

/-- The character data of an instruction flag name, spelled out. -/
lemma instruction_flag_data (s : String) :
    (instruction_flag s).data = 'i' :: 'n' :: 's' :: 't' :: 'r' :: '_' :: s.data := rfl

/-- Two strings whose character data differ at some position differ. -/
lemma string_ne_of_data_get? (s t : String) (k : Nat)
    (h : s.data.get? k ≠ t.data.get? k) : s ≠ t :=
  fun e => h (by rw [e])

/-- C1: for two outputs and program counter "pc", the synthesized text is
exactly the comma-joined output register names followed by the braced
next-cycle assignment clause, the result is the parse of that very text
unchanged, and it parses into the structured instruction whose assignment
target is the program counter with next-cycle value zero. -/
theorem return_instruction_two_outputs :
    return_instruction_text 2 "pc" = "_output_0, _output_1 \x7b pc' = 0 \x7d" ∧
    return_instruction 2 "pc" = parse_instruction (return_instruction_text 2 "pc") ∧
    return_instruction 2 "pc" =
      some { params := ["_output_0", "_output_1"], assignTarget := "pc", assignValue := 0 } := by
  refine ⟨by decide, rfl, by decide⟩

/-- C2 counterexample: with zero outputs the generated text is not exactly
the braced body alone, because a space precedes the opening brace. -/
theorem return_instruction_zero_text_not_exact :
    return_instruction_text 0 "pc" ≠ "\x7b pc' = 0 \x7d" := by decide

/-- C2 (amended): with zero outputs the text is a single space followed by
the braced assignment body: no register name and no comma precede the brace,
but one space does; the text still parses, with an empty register list. -/
theorem return_instruction_zero_outputs :
    (∀ pc : String, return_instruction_text 0 pc = " \x7b " ++ pc ++ "' = 0 \x7d") ∧
    return_instruction 0 "pc" =
      some { params := [], assignTarget := "pc", assignValue := 0 } :=
  ⟨fun pc => rfl, by decide⟩

/-- C3: on distinct indices, the input register naming and the output
register naming each produce distinct names. -/
theorem register_names_injective (i j : Nat) (hne : i ≠ j) :
    input_at i ≠ input_at j ∧ output_at i ≠ output_at j := by
  refine ⟨fun h => hne ?_, fun h => hne ?_⟩
  · have hd := congrArg String.data h
    simp only [input_at, String.data_append] at hd
    exact nat_repr_injective (String.ext (List.append_cancel_left hd))
  · have hd := congrArg String.data h
    simp only [output_at, String.data_append] at hd
    exact nat_repr_injective (String.ext (List.append_cancel_left hd))

/-- C3 witness: distinct names at the concrete indices zero and one. -/
theorem register_names_injective_witness :
    input_at 0 ≠ input_at 1 ∧ output_at 0 ≠ output_at 1 :=
  register_names_injective 0 1 (by decide)

/-- C4: the three naming namespaces are pairwise disjoint: no input register
name is an output register name, and no instruction flag name is an input or
output register name, whatever the indices and the instruction name. -/
theorem namespaces_disjoint (i j : Nat) (s : String) :
    input_at i ≠ output_at j ∧
    instruction_flag s ≠ input_at i ∧
    instruction_flag s ≠ output_at i := by
  refine ⟨string_ne_of_data_get? _ _ 1 ?_, string_ne_of_data_get? _ _ 0 ?_,
    string_ne_of_data_get? _ _ 0 ?_⟩
  · rw [input_at_data, output_at_data]
    exact (by decide : (some 'i' : Option Char) ≠ some 'o')
  · rw [instruction_flag_data, input_at_data]
    exact (by decide : (some 'i' : Option Char) ≠ some '_')
  · rw [instruction_flag_data, output_at_data]
    exact (by decide : (some 'i' : Option Char) ≠ some '_')

/-- C5: the output register list enumerates the output register names at the
indices zero up to the count, in ascending index order, and the empty count
yields the empty list. -/
theorem output_registers_enumerates (n : Nat) :
    output_registers n = List.ofFn (fun k : Fin n => output_at k.val) ∧
    output_registers 0 = [] := by
  constructor
  · show (List.range n).map output_at = List.ofFn fun k : Fin n => output_at k.val
    rw [List.ofFn_eq_map, ← List.map_coe_finRange, List.map_map]
    rfl
  · rfl

/-- C6: the literal fixtures of the naming scheme. -/
theorem literal_fixtures :
    instruction_flag "foo" = "instr_foo" ∧
    input_at 0 = "_input_0" ∧
    output_at 1 = "_output_1" := by
  refine ⟨rfl, by decide, by decide⟩

/-- C7: every operation of the layer is deterministic: identical arguments
give structurally equal results. -/
theorem operations_deterministic :
    (∀ a b : String, a = b → instruction_flag a = instruction_flag b) ∧
    (∀ i j : Nat, i = j → input_at i = input_at j) ∧
    (∀ i j : Nat, i = j → output_at i = output_at j) ∧
    (∀ m n : Nat, m = n → output_registers m = output_registers n) ∧
    (∀ m n : Nat, ∀ p q : String, m = n → p = q →
      return_instruction m p = return_instruction n q) :=
  ⟨fun _ _ h => h ▸ rfl, fun _ _ h => h ▸ rfl, fun _ _ h => h ▸ rfl, fun _ _ h => h ▸ rfl,
    fun _ _ _ _ h1 h2 => h1 ▸ h2 ▸ rfl⟩

/-- C7 witness: determinism applied at concrete arguments. -/
theorem operations_deterministic_witness :
    instruction_flag "pc" = instruction_flag "pc" ∧
    return_instruction 2 "pc" = return_instruction 2 "pc" :=
  ⟨operations_deterministic.1 "pc" "pc" rfl,
    operations_deterministic.2.2.2.2 2 2 "pc" "pc" rfl rfl⟩

/-- C8: the instruction flag naming is total: on every string, the empty one
included, it yields a well-defined string, namely the fixed prefix followed
by the input, six characters longer than the input. -/
theorem instruction_flag_total (s : String) :
    (instruction_flag s).data = 'i' :: 'n' :: 's' :: 't' :: 'r' :: '_' :: s.data ∧
    (instruction_flag s).length = 6 + s.length := by
  refine ⟨instruction_flag_data s, ?_⟩
  show (instruction_flag s).data.length = 6 + s.data.length
  rw [instruction_flag_data]
  simp
  omega

/-- C9: the instruction flag of the empty string is the bare prefix. -/
theorem instruction_flag_empty : instruction_flag "" = "instr_" := rfl

/-- C10: the instruction flag naming never merges two distinct instruction
names into the same flag name. -/
theorem instruction_flag_injective (a b : String) (hne : a ≠ b) :
    instruction_flag a ≠ instruction_flag b := by
  intro h
  apply hne
  have hd := congrArg String.data h
  simp only [instruction_flag, String.data_append] at hd
  exact String.ext (List.append_cancel_left hd)

/-- C10 witness: distinct flag names at two concrete instruction names. -/
theorem instruction_flag_injective_witness :
    instruction_flag "add" ≠ instruction_flag "sub" :=
  instruction_flag_injective "add" "sub" (by decide)

end AsmToPil
